import Mathlib

/-!
The `PathSet` of osquery (osquery/events/pathset.h)

A shallow embedding of the pattern path set of `pathset.h` and proofs about its
tokenizer, its pattern-variant builder, its component-wise matcher and its
`insert` / `find` / `clear` / `empty` surface, and of the `resolvedPath` policy of the
same file: its comparator and its variant builder.

Modelling conventions.

* `std::string` is a list of characters (`Str`), `==` and `compare(...) != 0` on
  strings are equality and inequality of lists; `std::vector<T>` is a `List T`,
  `push_back` is appending one element at the end.
* `boost::tokenizer<boost::char_separator<char>>` built with the separator `"/"`
  (no kept delimiters, empty tokens dropped, which are the library defaults) is
  the character scan `tokenizeFrom`.
* `replaceGlobWildcards` is declared in `osquery/filesystem.h` and consults the
  file system; it is a parameter `replaceGlobWildcards : Str → Str` of `insert`.
* `resolveFilePattern` is declared in `osquery/filesystem.h` and reads the file
  system; it is a parameter of `resolvedPath.createVPath`, the function from a
  pattern to the paths the call puts into the vector.
* Characters are ordered by their codes, as `std::char_traits<char>` orders them
  (on unsigned values); the proofs use only that this order is linear.
* The locks (`WriteLock`, `ReadLock`) do not change what a single call computes
  and are left out; the state of a set is the content of `paths_`.
* The loop counter `unsigned ndx` of `patternMatches` is a natural number: a path
  of `2 ^ 32` components is out of reach of the callers (it needs a path string
  of more than eight gigabytes).
-/

namespace osquery

/-- A `std::string`, as the list of its characters. -/
abbrev Str := List Char

/-- The `Path` of `PathSet`: `std::vector<std::string>`. -/
abbrev Path := List Str

/-- The `VPath` of `PathSet`: `std::vector<Path>`. -/
abbrev VPath := List Path

/-- The state of a `PathSet`: the member `paths_`. -/
structure PathSet where
  paths_ : List Path
  deriving DecidableEq

namespace PathSet

/-- The token scan of `boost::char_separator<char>` with the dropped delimiter `/`:
`tok` is the token being read, the second argument is the input left. A `/` ends the
token being read, which is produced unless it is empty; any other character is
appended to it; the end of the input ends it the same way. -/
def tokenizeFrom : Str → Str → List Str
  | tok, [] => if tok = [] then [] else [tok]
  | tok, c :: rest =>
    if c = '/' then
      if tok = [] then tokenizeFrom [] rest else tok :: tokenizeFrom [] rest
    else tokenizeFrom (tok ++ [c]) rest

/-- The sequence `tokenizer tokens(str, sep)` with `sep{"/"}`. -/
def tokenizer (str : Str) : List Str :=
  tokenizeFrom [] str

/-- `PathSet::createPath`: the root string gets one empty component first, then
every token is pushed. -/
def createPath (str : Str) : Path :=
  let path : Path := if str = ['/'] then [[]] else []
  (tokenizer str).foldl (fun path component => path ++ [component]) path

/-- The `for` loop of `PathSet::createVPath` over the tokens left, with the
current `vpath` and `path`; it returns both as they are when the loop is left
(by `break` at the first `**`, or at the end of the tokens). -/
def createVPathLoop : List Str → VPath → Path → VPath × Path
  | [], vpath, path => (vpath, path)
  | component :: rest, vpath, path =>
    if component = ['*', '*'] then
      (vpath ++ [path], path ++ [component])
    else createVPathLoop rest vpath (path ++ [component])

/-- `PathSet::createVPath`. -/
def createVPath (str : Str) : VPath :=
  let path : Path := if str = ['/'] then [[]] else []
  let r := createVPathLoop (tokenizer str) [] path
  r.1 ++ [r.2]

/-- The `for` loop of `PathSet::patternMatches`: the first number is how many
iterations are left (`psize - ndx`), the second is `ndx`. When none is left the
function returns `lhs.size() < rhs.size()`. -/
def patternMatchesLoop (lhs rhs : Path) : Nat → Nat → Bool
  | 0, _ => decide (lhs.length < rhs.length)
  | n + 1, ndx =>
    if lhs.getD ndx [] = ['*', '*'] ∨ rhs.getD ndx [] = ['*', '*'] then true
    else if lhs.getD ndx [] = ['*'] ∨ rhs.getD ndx [] = ['*'] then
      patternMatchesLoop lhs rhs n (ndx + 1)
    else if lhs.getD ndx [] ≠ rhs.getD ndx [] then false
    else patternMatchesLoop lhs rhs n (ndx + 1)

/-- `PathSet::patternMatches`. -/
def patternMatches (lhs rhs : Path) : Bool :=
  let psize := if lhs.length < rhs.length then lhs.length else rhs.length
  patternMatchesLoop lhs rhs psize 0

/-- `PathSet::insert`, with the glob rewrite as a parameter. -/
def insert (replaceGlobWildcards : Str → Str) (self : PathSet) (str : Str) : PathSet :=
  let pattern := replaceGlobWildcards str
  let vpath := createVPath pattern
  { paths_ := vpath.foldl (fun paths path => paths ++ [path]) self.paths_ }

/-- The `for` loop of `PathSet::find` over the stored patterns left. -/
def findLoop (path : Path) : List Path → Bool
  | [] => false
  | pattern :: rest => if patternMatches pattern path then true else findLoop path rest

/-- `PathSet::find`. -/
def find (self : PathSet) (str : Str) : Bool :=
  findLoop (createPath str) self.paths_

/-- `PathSet::clear`. -/
def clear (_self : PathSet) : PathSet :=
  { paths_ := [] }

/-- `PathSet::empty`. -/
def empty (self : PathSet) : Bool :=
  self.paths_.isEmpty

/-- A freshly constructed `PathSet`. -/
def new : PathSet :=
  { paths_ := [] }

/-- The store after a sequence of `insert` calls, in order. -/
def insertAll (replaceGlobWildcards : Str → Str) (self : PathSet) (strs : List Str) : PathSet :=
  strs.foldl (insert replaceGlobWildcards) self

/-- The pattern or query text `/c1/c2/.../cn` of a list of components. -/
def pathText : List Str → Str
  | [] => []
  | c :: cs => '/' :: (c ++ pathText cs)

/-- The matcher by recursion on both paths at once: what `patternMatches` computes
on the parts of `lhs` and `rhs` from the current position on. -/
def matchesFrom : Path → Path → Bool
  | l :: ls, r :: rs =>
    if l = ['*', '*'] ∨ r = ['*', '*'] then true
    else if l = ['*'] ∨ r = ['*'] then matchesFrom ls rs
    else if l ≠ r then false
    else matchesFrom ls rs
  | [], _ :: _ => true
  | _, [] => false

/-- The words of the tokenizer contract: the text split at every `/`, the empty
segments discarded. -/
def splitDiscardEmpty (str : Str) : List Str :=
  (str.splitOn '/').filter (fun seg => seg ≠ [])

end PathSet

/-- The three-way result of `std::string::compare` on two character ranges: the sign
of the first difference, the characters compared by their codes (as
`std::char_traits<char>` does, on unsigned values); when one range is an initial part
of the other, the shorter one is the smaller. -/
def strCompare : Str → Str → Int
  | [], [] => 0
  | [], _ :: _ => -1
  | _ :: _, [] => 1
  | x :: xs, y :: ys => if x < y then -1 else if y < x then 1 else strCompare xs ys

/-- The call `str.find(pat)` of `std::string`: the least position at which `pat`
occurs in `str`, and `none` for `std::string::npos`. -/
def strFind (pat : Str) : Str → Option Nat
  | [] => if pat = [] then some 0 else none
  | c :: cs => if pat.isPrefixOf (c :: cs) then some 0 else (strFind pat cs).map (· + 1)

namespace resolvedPath

/-- The `Path` of `resolvedPath`: a path text and the recursive flag. -/
structure Path where
  path : Str
  recursive : Bool
  deriving DecidableEq

/-- The `VPath` of `resolvedPath`: `std::vector<Path>`. -/
abbrev VPath := List Path

/-- `resolvedPath::Compare::operator()`. -/
def Compare (lhs rhs : Path) : Bool :=
  let size := if lhs.path.length < rhs.path.length then lhs.path.length else rhs.path.length
  let rc := strCompare (lhs.path.take size) (rhs.path.take size)
  if rc > 0 then false
  else if rc < 0 then true
  else if (decide (size < rhs.path.length) && lhs.recursive) ||
      (decide (size < lhs.path.length) && rhs.recursive) then false
  else decide (lhs.path.length < rhs.path.length)

/-- `resolvedPath::createPath`: the constructor's default `r = false`. -/
def createPath (str : Str) : Path :=
  { path := str, recursive := false }

/-- `resolvedPath::createVPath`, with the resolver `resolveFilePattern` of
`osquery/filesystem.h` as a parameter: the paths it puts into the vector for a
pattern. -/
def createVPath (resolveFilePattern : Str → List Str) (str : Str) : VPath :=
  let recursive := (strFind ['*', '*'] str).isSome
  let pattern :=
    match strFind ['*', '*'] str with
    | some pos => str.take pos
    | none => str
  (resolveFilePattern pattern).foldl
    (fun vpath path => vpath ++ [{ path := path, recursive := recursive }]) []

/-- The comparator by recursion on both path texts at once, `lrec` the recursive flag
of the left entry: what `Compare` computes from the current character on. -/
def compareFrom (lrec : Bool) : Str → Str → Bool
  | x :: xs, y :: ys => if x < y then true else if y < x then false else compareFrom lrec xs ys
  | [], _ :: _ => !lrec
  | _, [] => false

end resolvedPath

end osquery

namespace osquery.PathSet

/-! Helper lemmas: vectors and loops -/

theorem foldl_push_back {α : Type} (init l : List α) :
    l.foldl (fun acc x => acc ++ [x]) init = init ++ l := by
  induction l generalizing init with
  | nil => simp
  | cons x xs ih => simp [ih]

theorem createPath_eq (str : Str) :
    createPath str = (if str = ['/'] then [[]] else []) ++ tokenizer str := by
  unfold createPath
  exact foldl_push_back _ _

theorem insert_paths (g : Str → Str) (S : PathSet) (str : Str) :
    (insert g S str).paths_ = S.paths_ ++ createVPath (g str) := by
  unfold insert
  exact foldl_push_back _ _

theorem matchesFrom_nil_right (P : Path) : matchesFrom P [] = false := by
  cases P <;> rfl

theorem patternMatchesLoop_eq (lhs rhs : Path) (n ndx : Nat)
    (h : n + ndx = min lhs.length rhs.length) :
    patternMatchesLoop lhs rhs n ndx = matchesFrom (lhs.drop ndx) (rhs.drop ndx) := by
  induction n generalizing ndx with
  | zero =>
    simp only [patternMatchesLoop]
    by_cases hlt : lhs.length < rhs.length
    · have h1 : ndx = lhs.length := by omega
      have h2 : rhs.drop ndx = rhs[ndx] :: rhs.drop (ndx + 1) :=
        List.drop_eq_getElem_cons (by omega)
      have h3 : lhs.drop ndx = [] := by rw [h1, List.drop_length]
      rw [h2, h3]
      simp [matchesFrom, hlt]
    · have h1 : ndx = rhs.length := by omega
      rw [h1, List.drop_length, matchesFrom_nil_right]
      simp [hlt]
  | succ n ih =>
    have hl : ndx < lhs.length := by omega
    have hr : ndx < rhs.length := by omega
    have h1 : lhs.drop ndx = lhs[ndx] :: lhs.drop (ndx + 1) := List.drop_eq_getElem_cons hl
    have h2 : rhs.drop ndx = rhs[ndx] :: rhs.drop (ndx + 1) := List.drop_eq_getElem_cons hr
    have g1 : lhs.getD ndx [] = lhs[ndx] := by simp [List.getD_eq_getElem?_getD, hl]
    have g2 : rhs.getD ndx [] = rhs[ndx] := by simp [List.getD_eq_getElem?_getD, hr]
    rw [h1, h2, patternMatchesLoop, matchesFrom, g1, g2, ih (ndx + 1) (by omega)]

theorem patternMatches_eq (lhs rhs : Path) : patternMatches lhs rhs = matchesFrom lhs rhs := by
  unfold patternMatches
  have := patternMatchesLoop_eq lhs rhs (min lhs.length rhs.length) 0 (by simp)
  simp only [List.drop_zero] at this
  rw [← this]
  by_cases h : lhs.length < rhs.length
  · simp [h, Nat.min_eq_left (Nat.le_of_lt h)]
  · simp [h, Nat.min_eq_right (Nat.le_of_not_lt h)]



theorem forall_lt_succ_iff (p : Nat → Prop) (n : Nat) :
    (∀ j, j < n + 1 → p j) ↔ p 0 ∧ ∀ j, j < n → p (j + 1) := by
  constructor
  · intro h
    exact ⟨h 0 (by omega), fun j hj => h (j + 1) (by omega)⟩
  · rintro ⟨h0, hs⟩ j hj
    cases j with
    | zero => exact h0
    | succ j => exact hs j (by omega)

theorem exists_lt_succ_iff (p : Nat → Prop) (n : Nat) :
    (∃ i, i < n + 1 ∧ p i) ↔ p 0 ∨ ∃ i, i < n ∧ p (i + 1) := by
  constructor
  · rintro ⟨i, hi, hp⟩
    cases i with
    | zero => exact Or.inl hp
    | succ i => exact Or.inr ⟨i, by omega, hp⟩
  · rintro (h0 | ⟨i, hi, hp⟩)
    · exact ⟨0, by omega, h0⟩
    · exact ⟨i + 1, by omega, hp⟩

theorem matchesFrom_iff (P Q : Path) :
    matchesFrom P Q = true ↔
      (∃ i, i < min P.length Q.length ∧
          (P[i]? = some ['*', '*'] ∨ Q[i]? = some ['*', '*']) ∧
          ∀ j, j < i →
            P[j]? ≠ some ['*', '*'] ∧ Q[j]? ≠ some ['*', '*'] ∧
              (P[j]? = some ['*'] ∨ Q[j]? = some ['*'] ∨ P[j]? = Q[j]?)) ∨
      ((∀ i, i < min P.length Q.length →
          P[i]? ≠ some ['*', '*'] ∧ Q[i]? ≠ some ['*', '*'] ∧
            (P[i]? = some ['*'] ∨ Q[i]? = some ['*'] ∨ P[i]? = Q[i]?)) ∧
        P.length < Q.length) := by
  induction P generalizing Q with
  | nil =>
    cases Q with
    | nil => simp [matchesFrom]
    | cons r rs => simp [matchesFrom]
  | cons l ls ih =>
    cases Q with
    | nil => simp [matchesFrom]
    | cons r rs =>
      simp only [List.length_cons, Nat.succ_min_succ, exists_lt_succ_iff, forall_lt_succ_iff,
        List.getElem?_cons_zero, List.getElem?_cons_succ, Option.some.injEq,
        Nat.add_lt_add_iff_right]
      rw [matchesFrom]
      by_cases h1 : l = ['*', '*'] ∨ r = ['*', '*']
      · simp only [if_pos h1, true_iff]
        exact Or.inl (Or.inl ⟨h1, by intro j hj; omega⟩)
      · rw [if_neg h1]
        have hl : l ≠ ['*', '*'] := fun h => h1 (Or.inl h)
        have hr : r ≠ ['*', '*'] := fun h => h1 (Or.inr h)
        by_cases h2 : l = ['*'] ∨ r = ['*']
        · rw [if_pos h2, ih rs]
          have h2' : l = ['*'] ∨ r = ['*'] ∨ l = r := by tauto
          simp [hl, hr, h2']
        · rw [if_neg h2]
          by_cases h3 : l = r
          · rw [if_neg (by simpa using h3), ih rs]
            have h2' : l = ['*'] ∨ r = ['*'] ∨ l = r := Or.inr (Or.inr h3)
            simp [hl, hr, h2']
          · rw [if_pos h3]
            have h2' : ¬(l = ['*'] ∨ r = ['*'] ∨ l = r) := by tauto
            simp [h1, h2']

/-! Helper lemmas: the tokenizer -/

theorem tokenizeFrom_append_sep (tok a b : Str) :
    tokenizeFrom tok (a ++ '/' :: b) = tokenizeFrom tok a ++ tokenizeFrom [] b := by
  induction a generalizing tok with
  | nil =>
    by_cases h : tok = [] <;> simp [tokenizeFrom, h]
  | cons c cs ih =>
    by_cases hc : c = '/'
    · by_cases h : tok = [] <;> simp [tokenizeFrom, hc, h, ih]
    · simp [tokenizeFrom, hc, ih]

theorem tokenizeFrom_no_sep (tok c : Str) (hc : '/' ∉ c) :
    tokenizeFrom tok c = if tok ++ c = [] then [] else [tok ++ c] := by
  induction c generalizing tok with
  | nil => simp [tokenizeFrom]
  | cons x xs ih =>
    have hx : x ≠ '/' := fun h => hc (by simp [h])
    have hxs : '/' ∉ xs := fun h => hc (by simp [h])
    simp [tokenizeFrom, hx, ih _ hxs]

theorem tokenizeFrom_mem (tok s c : Str) (h : c ∈ tokenizeFrom tok s) :
    c ≠ [] ∧ ('/' ∉ tok → '/' ∉ c) := by
  induction s generalizing tok with
  | nil =>
    by_cases ht : tok = []
    · simp [tokenizeFrom, ht] at h
    · simp only [tokenizeFrom, if_neg ht, List.mem_singleton] at h
      subst h
      exact ⟨ht, id⟩
  | cons x xs ih =>
    by_cases hx : x = '/'
    · by_cases ht : tok = []
      · simp only [tokenizeFrom, hx, ht, if_true] at h
        exact ⟨(ih [] h).1, fun _ => (ih [] h).2 (by simp)⟩
      · simp only [tokenizeFrom, hx, if_neg ht, if_true, List.mem_cons] at h
        rcases h with h | h
        · subst h
          exact ⟨ht, id⟩
        · exact ⟨(ih [] h).1, fun _ => (ih [] h).2 (by simp)⟩
    · simp only [tokenizeFrom, if_neg hx] at h
      refine ⟨(ih _ h).1, fun ht => (ih _ h).2 ?_⟩
      simp only [List.mem_append, List.mem_singleton, not_or]
      exact ⟨ht, fun e => hx e.symm⟩

theorem tokenizer_mem (s c : Str) (h : c ∈ tokenizer s) : c ≠ [] ∧ '/' ∉ c := by
  have := tokenizeFrom_mem [] s c h
  exact ⟨this.1, this.2 (by simp)⟩

theorem tokenizeFrom_eq_nil (tok s : Str) :
    tokenizeFrom tok s = [] ↔ tok = [] ∧ ∀ c ∈ s, c = '/' := by
  induction s generalizing tok with
  | nil => by_cases ht : tok = [] <;> simp [tokenizeFrom, ht]
  | cons x xs ih =>
    by_cases hx : x = '/'
    · by_cases ht : tok = [] <;> simp [tokenizeFrom, hx, ht, ih]
    · simp [tokenizeFrom, hx, ih]

theorem tokenizer_eq_nil (s : Str) : tokenizer s = [] ↔ ∀ c ∈ s, c = '/' := by
  simp [tokenizer, tokenizeFrom_eq_nil]

theorem modifyHead_self {α : Type} (l : List α) : l.modifyHead (fun x => x) = l := by
  cases l <;> rfl

theorem tokenizeFrom_eq_split (tok s : Str) :
    tokenizeFrom tok s =
      ((s.splitOn '/').modifyHead (fun seg => tok ++ seg)).filter (fun seg => seg ≠ []) := by
  induction s generalizing tok with
  | nil => by_cases ht : tok = [] <;> simp [tokenizeFrom, ht, List.splitOn]
  | cons x xs ih =>
    simp only [List.splitOn] at ih ⊢
    rw [List.splitOnP_cons]
    by_cases hx : x = '/'
    · by_cases ht : tok = []
      · simp [tokenizeFrom, hx, ht, ih, modifyHead_self]
      · simp [tokenizeFrom, hx, ht, ih, modifyHead_self]
    · simp [tokenizeFrom, hx, ih, List.modifyHead_modifyHead, Function.comp_def]

theorem tokenizer_eq_split (s : Str) : tokenizer s = splitDiscardEmpty s := by
  unfold tokenizer splitDiscardEmpty
  rw [tokenizeFrom_eq_split]
  congr 1
  cases (s.splitOn '/') <;> simp

/-! Helper lemmas: path texts -/

theorem pathText_append (a b : List Str) : pathText (a ++ b) = pathText a ++ pathText b := by
  induction a with
  | nil => rfl
  | cons c cs ih => simp [pathText, ih]

theorem tokenizeFrom_append_pathText (a : Str) (l : List Str) :
    tokenizeFrom [] (a ++ pathText l) = tokenizeFrom [] a ++ tokenizer (pathText l) := by
  cases l with
  | nil => simp [pathText, tokenizer, tokenizeFrom]
  | cons c cs =>
    simp only [pathText, tokenizer]
    rw [tokenizeFrom_append_sep]
    simp [tokenizeFrom]

theorem tokenizer_pathText (l : List Str) (hl : ∀ c ∈ l, c ≠ [] ∧ '/' ∉ c) :
    tokenizer (pathText l) = l := by
  induction l with
  | nil => rfl
  | cons c cs ih =>
    have hc := hl c (by simp)
    have hcs : ∀ x ∈ cs, x ≠ [] ∧ '/' ∉ x := fun x hx => hl x (by simp [hx])
    have h1 : tokenizer (pathText (c :: cs)) = tokenizeFrom [] (c ++ pathText cs) := by
      simp [tokenizer, pathText, tokenizeFrom]
    rw [h1, tokenizeFrom_append_pathText, ih hcs, tokenizeFrom_no_sep _ _ hc.2]
    simp [hc.1]

theorem pathText_ne_root (l : List Str) (hl : ∀ c ∈ l, c ≠ []) : pathText l ≠ ['/'] := by
  cases l with
  | nil => simp [pathText]
  | cons c cs =>
    have hc := hl c (by simp)
    cases c with
    | nil => exact absurd rfl hc
    | cons x xs => simp [pathText]

theorem createPath_pathText (l : List Str) (hl : ∀ c ∈ l, c ≠ [] ∧ '/' ∉ c) :
    createPath (pathText l) = l := by
  rw [createPath_eq, tokenizer_pathText l hl,
    if_neg (pathText_ne_root l (fun c hc => (hl c hc).1))]
  rfl

/-! Helper lemmas: the variant builder -/

theorem createVPathLoop_eq (toks : List Str) (vpath : VPath) (path : Path) :
    createVPathLoop toks vpath path =
      if ['*', '*'] ∈ toks then
        (vpath ++ [path ++ toks.takeWhile (fun c => c != ['*', '*'])],
          path ++ toks.takeWhile (fun c => c != ['*', '*']) ++ [['*', '*']])
      else (vpath, path ++ toks) := by
  induction toks generalizing path with
  | nil => simp [createVPathLoop]
  | cons c cs ih =>
    by_cases hc : c = ['*', '*']
    · subst hc
      simp [createVPathLoop]
    · have hc' : ¬ ['*', '*'] = c := fun h => hc h.symm
      rw [createVPathLoop, if_neg hc, ih]
      by_cases hm : ['*', '*'] ∈ cs
      · simp [hm, hc, List.takeWhile_cons]
      · simp [hm, hc, hc']

theorem tokenizer_root : tokenizer ['/'] = [] := by
  rfl

theorem createVPath_eq (str : Str) :
    createVPath str =
      if ['*', '*'] ∈ createPath str then
        [(createPath str).takeWhile (fun c => c != ['*', '*']),
          (createPath str).takeWhile (fun c => c != ['*', '*']) ++ [['*', '*']]]
      else [createPath str] := by
  unfold createVPath
  simp only [createVPathLoop_eq, createPath_eq]
  by_cases hs : str = ['/']
  · subst hs
    simp [tokenizer_root]
  · by_cases hm : ['*', '*'] ∈ tokenizer str <;> simp [hs, hm]

theorem createVPath_length (str : Str) :
    (createVPath str).length = if ['*', '*'] ∈ createPath str then 2 else 1 := by
  rw [createVPath_eq]
  split <;> rfl

theorem createPath_append_marker (x rest : Str) :
    createPath (x ++ '/' :: '*' :: '*' :: '/' :: rest) =
      tokenizer x ++ [['*', '*']] ++ tokenizer rest := by
  rw [createPath_eq]
  have h1 : x ++ '/' :: '*' :: '*' :: '/' :: rest ≠ ['/'] := by
    intro h
    have := congrArg List.length h
    simp at this
    omega
  have h2 : '*' :: '*' :: '/' :: rest = ['*', '*'] ++ '/' :: rest := rfl
  rw [if_neg h1, tokenizer, tokenizeFrom_append_sep, h2, tokenizeFrom_append_sep]
  simp [tokenizer, tokenizeFrom]

theorem createPath_append_marker_end (x : Str) :
    createPath (x ++ ['/', '*', '*']) = tokenizer x ++ [['*', '*']] := by
  rw [createPath_eq]
  have h1 : x ++ ['/', '*', '*'] ≠ ['/'] := by
    intro h
    have := congrArg List.length h
    simp at this
  rw [if_neg h1, tokenizer, tokenizeFrom_append_sep]
  simp [tokenizer, tokenizeFrom]

theorem takeWhile_append_marker (a b : List Str) (ha : ['*', '*'] ∉ a) :
    (a ++ ['*', '*'] :: b).takeWhile (fun c => c != ['*', '*']) = a := by
  induction a with
  | nil => simp
  | cons c cs ih =>
    have hc : c ≠ ['*', '*'] := fun h => ha (by simp [h])
    have hcs : ['*', '*'] ∉ cs := fun h => ha (by simp [h])
    simp [List.takeWhile_cons, hc, ih hcs]

/-! Helper lemmas: the matcher on literal paths -/

theorem matchesFrom_literal (P Q : Path)
    (hP : ∀ c ∈ P, c ≠ ['*'] ∧ c ≠ ['*', '*']) (hQ : ∀ c ∈ Q, c ≠ ['*'] ∧ c ≠ ['*', '*']) :
    matchesFrom P Q = true ↔ P <+: Q ∧ P.length < Q.length := by
  induction P generalizing Q with
  | nil =>
    cases Q with
    | nil => simp [matchesFrom]
    | cons r rs => simp [matchesFrom]
  | cons l ls ih =>
    cases Q with
    | nil => simp [matchesFrom]
    | cons r rs =>
      have hl := hP l (by simp)
      have hr := hQ r (by simp)
      have hls : ∀ c ∈ ls, c ≠ ['*'] ∧ c ≠ ['*', '*'] := fun c hc => hP c (by simp [hc])
      have hrs : ∀ c ∈ rs, c ≠ ['*'] ∧ c ≠ ['*', '*'] := fun c hc => hQ c (by simp [hc])
      rw [matchesFrom, if_neg (by simp [hl.2, hr.2]), if_neg (by simp [hl.1, hr.1])]
      by_cases h : l = r
      · simp [h, ih rs hls hrs, List.cons_prefix_cons]
      · simp [h, List.cons_prefix_cons]

theorem matchesFrom_literal_marker (P Q : Path)
    (hP : ∀ c ∈ P, c ≠ ['*'] ∧ c ≠ ['*', '*']) (hQ : ∀ c ∈ Q, c ≠ ['*'] ∧ c ≠ ['*', '*']) :
    matchesFrom (P ++ [['*', '*']]) Q = true ↔ P <+: Q ∧ P.length < Q.length := by
  induction P generalizing Q with
  | nil =>
    cases Q with
    | nil => simp [matchesFrom]
    | cons r rs => simp [matchesFrom]
  | cons l ls ih =>
    cases Q with
    | nil => simp [matchesFrom]
    | cons r rs =>
      have hl := hP l (by simp)
      have hr := hQ r (by simp)
      have hls : ∀ c ∈ ls, c ≠ ['*'] ∧ c ≠ ['*', '*'] := fun c hc => hP c (by simp [hc])
      have hrs : ∀ c ∈ rs, c ≠ ['*'] ∧ c ≠ ['*', '*'] := fun c hc => hQ c (by simp [hc])
      rw [List.cons_append, matchesFrom, if_neg (by simp [hl.2, hr.2]),
        if_neg (by simp [hl.1, hr.1])]
      by_cases h : l = r
      · simp [h, ih rs hls hrs, List.cons_prefix_cons]
      · simp [h, List.cons_prefix_cons]

theorem matchesFrom_same_length (P Q : Path) (hP : ['*', '*'] ∉ P) (hQ : ['*', '*'] ∉ Q)
    (hlen : Q.length = P.length) : matchesFrom P Q = false := by
  induction P generalizing Q with
  | nil =>
    cases Q with
    | nil => rfl
    | cons r rs => simp at hlen
  | cons l ls ih =>
    cases Q with
    | nil => rfl
    | cons r rs =>
      have hl : l ≠ ['*', '*'] := fun h => hP (by simp [h])
      have hr : r ≠ ['*', '*'] := fun h => hQ (by simp [h])
      have hls : ['*', '*'] ∉ ls := fun h => hP (by simp [h])
      have hrs : ['*', '*'] ∉ rs := fun h => hQ (by simp [h])
      have hlen' : rs.length = ls.length := by simpa using hlen
      rw [matchesFrom, if_neg (by simp [hl, hr]), ih rs hls hrs hlen']
      simp

/-! Helper lemmas: the scan of `find` -/

theorem findLoop_iff (path : Path) (ps : List Path) :
    findLoop path ps = true ↔ ∃ P ∈ ps, patternMatches P path = true := by
  induction ps with
  | nil => simp [findLoop]
  | cons P rest ih =>
    by_cases h : patternMatches P path = true
    · simp [findLoop, h]
    · simp [findLoop, h, ih]

theorem findLoop_append (path : Path) (a b : List Path) :
    findLoop path (a ++ b) = (findLoop path a || findLoop path b) := by
  induction a with
  | nil => simp [findLoop]
  | cons P rest ih =>
    by_cases h : patternMatches P path = true
    · simp [findLoop, h]
    · simp [findLoop, h, ih]

theorem insertAll_paths_extends (g : Str → Str) (S : PathSet) (strs : List Str) :
    S.paths_ <+: (insertAll g S strs).paths_ := by
  induction strs generalizing S with
  | nil => exact List.prefix_refl _
  | cons p ps ih =>
    have h1 : insertAll g S (p :: ps) = insertAll g (insert g S p) ps := rfl
    rw [h1]
    refine List.IsPrefix.trans ?_ (ih (insert g S p))
    rw [insert_paths]
    exact List.prefix_append _ _

/-! The matcher -/

/-- C1. `patternMatches P Q` is true exactly when, over the positions below
`min |P| |Q|`, either (a) some position holds `**` on one side, no earlier position
holds `**` and every earlier pair matches (one side is `*`, or both are equal), or
(b) no such position holds `**`, every pair matches, and `P` is strictly shorter than
`Q`; it is false in every other case. -/
theorem patternMatches_iff_scan (P Q : Path) :
    patternMatches P Q = true ↔
      (∃ i, i < min P.length Q.length ∧
          (P[i]? = some ['*', '*'] ∨ Q[i]? = some ['*', '*']) ∧
          ∀ j, j < i →
            P[j]? ≠ some ['*', '*'] ∧ Q[j]? ≠ some ['*', '*'] ∧
              (P[j]? = some ['*'] ∨ Q[j]? = some ['*'] ∨ P[j]? = Q[j]?)) ∨
      ((∀ i, i < min P.length Q.length →
          P[i]? ≠ some ['*', '*'] ∧ Q[i]? ≠ some ['*', '*'] ∧
            (P[i]? = some ['*'] ∨ Q[i]? = some ['*'] ∨ P[i]? = Q[i]?)) ∧
        P.length < Q.length) := by
  rw [patternMatches_eq]
  exact matchesFrom_iff P Q

/-! Recursive and single-component wildcards -/

theorem paths_insert_recursive (g : Str → Str) (p : List Str)
    (hp : ∀ c ∈ p, c ≠ [] ∧ '/' ∉ c ∧ c ≠ ['*'] ∧ c ≠ ['*', '*'])
    (hg : g (pathText (p ++ [['*', '*']])) = pathText (p ++ [['*', '*']])) :
    (insert g new (pathText (p ++ [['*', '*']]))).paths_ = [p, p ++ [['*', '*']]] := by
  have hv : ∀ c ∈ p ++ [['*', '*']], c ≠ [] ∧ '/' ∉ c := by
    intro c hc
    rcases List.mem_append.mp hc with h | h
    · exact ⟨(hp c h).1, (hp c h).2.1⟩
    · have : c = ['*', '*'] := by simpa using h
      subst this
      decide
  have hnot : ['*', '*'] ∉ p := fun h => (hp _ h).2.2.2 rfl
  rw [insert_paths, hg, createVPath_eq, createPath_pathText _ hv, if_pos (by simp),
    takeWhile_append_marker p [] hnot]
  rfl

/-- C2. After `insert("/p1/.../pn/**")` into an empty set, with literal components
`p1..pn` (possibly none) and the glob rewrite leaving the pattern as it is, `find(q)`
is true, for a query `q` whose components are all literal, if and only if `p` is a
strict prefix of `createPath(q)`. -/
theorem find_recursive_wildcard_iff (g : Str → Str) (p : List Str) (q : Str)
    (hp : ∀ c ∈ p, c ≠ [] ∧ '/' ∉ c ∧ c ≠ ['*'] ∧ c ≠ ['*', '*'])
    (hq : ∀ c ∈ createPath q, c ≠ ['*'] ∧ c ≠ ['*', '*'])
    (hg : g (pathText (p ++ [['*', '*']])) = pathText (p ++ [['*', '*']])) :
    find (insert g new (pathText (p ++ [['*', '*']]))) q = true ↔
      p <+: createPath q ∧ p.length < (createPath q).length := by
  have hp' : ∀ c ∈ p, c ≠ ['*'] ∧ c ≠ ['*', '*'] := fun c hc => (hp c hc).2.2
  unfold find
  rw [paths_insert_recursive g p hp hg]
  simp only [findLoop, patternMatches_eq]
  have h1 := matchesFrom_literal p (createPath q) hp' hq
  have h2 := matchesFrom_literal_marker p (createPath q) hp' hq
  by_cases h : p <+: createPath q ∧ p.length < (createPath q).length
  · simp [h1.mpr h, h]
  · have e1 : matchesFrom p (createPath q) = false := by
      rw [Bool.eq_false_iff]
      exact fun hm => h (h1.mp hm)
    have e2 : matchesFrom (p ++ [['*', '*']]) (createPath q) = false := by
      rw [Bool.eq_false_iff]
      exact fun hm => h (h2.mp hm)
    simp [e1, e2, h]

/-- The witness of C2: after `insert("/a/b/**")`, `find("/a/b/c/d")` is true and
`find("/a/b")` is false. -/
theorem find_recursive_wildcard_iff_witness :
    find (insert id new "/a/b/**".toList) "/a/b/c/d".toList = true ∧
      find (insert id new "/a/b/**".toList) "/a/b".toList = false :=
  ⟨(find_recursive_wildcard_iff id ["a".toList, "b".toList] "/a/b/c/d".toList
      (by decide) (by decide) rfl).mpr ⟨⟨["c".toList, "d".toList], rfl⟩, by decide⟩,
    Bool.eq_false_iff.mpr fun h =>
      absurd ((find_recursive_wildcard_iff id ["a".toList, "b".toList] "/a/b".toList
        (by decide) (by decide) rfl).mp h).2 (by decide)⟩

/-- C3. After `insert("/d1/.../dn/*")` into an empty set, with literal components
`d1..dn` and the glob rewrite leaving the pattern as it is, `find("/d1/.../dn/f")` is
false for every literal component `f`: the stored pattern and the query have the same
number of components. It holds for an empty `d` as well. -/
theorem find_single_wildcard_same_depth (g : Str → Str) (d : List Str) (f : Str)
    (hd : ∀ c ∈ d, c ≠ [] ∧ '/' ∉ c ∧ c ≠ ['*'] ∧ c ≠ ['*', '*'])
    (hf : f ≠ [] ∧ '/' ∉ f ∧ f ≠ ['*'] ∧ f ≠ ['*', '*'])
    (hg : g (pathText (d ++ [['*']])) = pathText (d ++ [['*']])) :
    find (insert g new (pathText (d ++ [['*']]))) (pathText (d ++ [f])) = false := by
  have hP : ∀ c ∈ d ++ [['*']], c ≠ [] ∧ '/' ∉ c := by
    intro c hc
    rcases List.mem_append.mp hc with h | h
    · exact ⟨(hd c h).1, (hd c h).2.1⟩
    · have : c = ['*'] := by simpa using h
      subst this
      decide
  have hQ : ∀ c ∈ d ++ [f], c ≠ [] ∧ '/' ∉ c := by
    intro c hc
    rcases List.mem_append.mp hc with h | h
    · exact ⟨(hd c h).1, (hd c h).2.1⟩
    · have : c = f := by simpa using h
      subst this
      exact ⟨hf.1, hf.2.1⟩
  have hnd : ['*', '*'] ∉ d := fun h => (hd _ h).2.2.2 rfl
  have hnP : ['*', '*'] ∉ d ++ [['*']] := by
    simp only [List.mem_append, List.mem_singleton, not_or]
    exact ⟨hnd, by decide⟩
  have hnQ : ['*', '*'] ∉ d ++ [f] := by
    simp only [List.mem_append, List.mem_singleton, not_or]
    exact ⟨hnd, fun h => hf.2.2.2 h.symm⟩
  unfold find
  rw [insert_paths, hg, createVPath_eq, createPath_pathText _ hP, if_neg hnP,
    createPath_pathText _ hQ]
  simp only [new, List.nil_append, findLoop, patternMatches_eq]
  rw [matchesFrom_same_length _ _ hnP hnQ (by simp)]
  rfl

/-- The witness of C3: `insert("/etc/*")` then `find("/etc/passwd")` returns false. -/
theorem find_single_wildcard_same_depth_witness :
    find (insert id new "/etc/*".toList) "/etc/passwd".toList = false :=
  find_single_wildcard_same_depth id ["etc".toList] "passwd".toList (by decide) (by decide) rfl

/-- C4, counterexample: the stored literal pattern `[a]` (what `insert("/a")` stores)
matches the query `[**]` (the tokenization of `"/**"`), which has the same number of
components. -/
theorem same_length_query_marker_matches :
    patternMatches [['a']] [['*', '*']] = true ∧
      ([['*', '*']] : Path).length = ([['a']] : Path).length ∧
      ['*', '*'] ∉ ([['a']] : Path) ∧
      createVPath "/a".toList = [[['a']]] ∧
      createPath "/**".toList = [['*', '*']] ∧
      find (insert id new "/a".toList) "/**".toList = true := by
  decide

/-- C4, amended. A stored pattern `P` without a `**` component never matches a query
`Q` of the same component count that holds no `**` component either; in particular
`P` does not match itself. -/
theorem patternMatches_same_length_false (P : Path) (hP : ['*', '*'] ∉ P) :
    (∀ Q : Path, ['*', '*'] ∉ Q → Q.length = P.length → patternMatches P Q = false) ∧
      patternMatches P P = false := by
  refine ⟨fun Q hQ hlen => ?_, ?_⟩
  · rw [patternMatches_eq]
    exact matchesFrom_same_length P Q hP hQ hlen
  · rw [patternMatches_eq]
    exact matchesFrom_same_length P P hP hP rfl

/-- The witness of C4 as amended, at the stored pattern `[etc, *]`. -/
theorem patternMatches_same_length_false_witness :
    ['*', '*'] ∉ (["etc".toList, ['*']] : Path) ∧
      ((∀ Q : Path, ['*', '*'] ∉ Q → Q.length = (["etc".toList, ['*']] : Path).length →
          patternMatches ["etc".toList, ['*']] Q = false) ∧
        patternMatches ["etc".toList, ['*']] ["etc".toList, ['*']] = false) :=
  ⟨by decide, patternMatches_same_length_false ["etc".toList, ['*']] (by decide)⟩

/-! The root pattern -/

theorem createPath_head_ne_nil (q : Str) (r : Str) (rs : Path) (h : createPath q = r :: rs) :
    r ≠ [] ∨ rs = [] := by
  rw [createPath_eq] at h
  by_cases hq : q = ['/']
  · subst hq
    rw [tokenizer_root] at h
    simp only [if_true, List.append_nil, List.cons.injEq] at h
    exact Or.inr h.2.symm
  · rw [if_neg hq, List.nil_append] at h
    exact Or.inl (tokenizer_mem q r (by rw [h]; simp)).1

theorem matchesFrom_root_false (q : Str)
    (hq : ∀ c ∈ createPath q, c ≠ ['*'] ∧ c ≠ ['*', '*']) :
    matchesFrom [[]] (createPath q) = false := by
  cases hc : createPath q with
  | nil => rfl
  | cons r rs =>
    have hr := hq r (by rw [hc]; simp)
    rw [matchesFrom, if_neg (by simp [hr.2]), if_neg (by simp [hr.1])]
    by_cases h : r = []
    · rcases createPath_head_ne_nil q r rs hc with h' | h'
      · exact absurd h h'
      · subst h'
        subst h
        rfl
    · have h' : ([] : Str) ≠ r := fun e => h e.symm
      simp [h']

/-- C5. In a set populated by `insert("/")` alone (the glob rewrite leaving `/` as it
is), the single stored entry is the one-component path `[""]`, `find("/")` is false,
and `find(q)` is false for every query `q` whose components contain neither `*` nor
`**`. -/
theorem find_after_insert_root (g : Str → Str) (hg : g ['/'] = ['/']) :
    (insert g new ['/']).paths_ = [[[]]] ∧
      createPath ['/'] = [[]] ∧
      find (insert g new ['/']) ['/'] = false ∧
      ∀ q : Str, (∀ c ∈ createPath q, c ≠ ['*'] ∧ c ≠ ['*', '*']) →
        find (insert g new ['/']) q = false := by
  have hs : (insert g new ['/']).paths_ = [[[]]] := by
    rw [insert_paths, hg]
    rfl
  refine ⟨hs, rfl, ?_, ?_⟩
  · unfold find
    rw [hs]
    rfl
  · intro q hq
    unfold find
    rw [hs]
    simp only [findLoop, patternMatches_eq, matchesFrom_root_false q hq]
    rfl

/-- The witness of C5, with the identity as glob rewrite. -/
theorem find_after_insert_root_witness :
    (insert id new "/".toList).paths_ = [["".toList]] ∧
      createPath "/".toList = ["".toList] ∧
      find (insert id new "/".toList) "/".toList = false ∧
      ∀ q : Str, (∀ c ∈ createPath q, c ≠ ['*'] ∧ c ≠ ['*', '*']) →
        find (insert id new "/".toList) q = false :=
  find_after_insert_root id rfl

/-! `find` -/

/-- C6. `find(q)` is true if and only if some stored entry `P` satisfies
`patternMatches(P, createPath(q))`; it is false on the empty store; and two stores
with the same entries, in whatever order and multiplicity, give the same result. -/
theorem find_iff_exists_match (S : PathSet) (q : Str) :
    (find S q = true ↔ ∃ P ∈ S.paths_, patternMatches P (createPath q) = true) ∧
      (S.paths_ = [] → find S q = false) ∧
      find new q = false ∧
      ∀ T : PathSet, (∀ P, P ∈ S.paths_ ↔ P ∈ T.paths_) → find S q = find T q := by
  refine ⟨findLoop_iff _ _, fun h => ?_, rfl, fun T h => ?_⟩
  · unfold find
    rw [h]
    rfl
  rw [Bool.eq_iff_iff]
  unfold find
  rw [findLoop_iff, findLoop_iff]
  constructor
  · rintro ⟨P, hP, hm⟩
    exact ⟨P, (h P).mp hP, hm⟩
  · rintro ⟨P, hP, hm⟩
    exact ⟨P, (h P).mpr hP, hm⟩

/-! The variant builder and the tokenizer -/

/-- C7. `createVPath(s)` is `[createPath(s)]` when no component of `createPath(s)` is
`**`, and otherwise `[pre, pre ++ ["**"]]` with `pre` the components of `createPath(s)`
before the first `**`; so `createVPath(x ++ "/**/" ++ rest) = createVPath(x ++ "/**")`
whenever no component of `x` is `**`. -/
theorem createVPath_variants (s : Str) :
    (['*', '*'] ∉ createPath s → createVPath s = [createPath s]) ∧
      (['*', '*'] ∈ createPath s →
        createVPath s =
          [(createPath s).takeWhile (fun c => c != ['*', '*']),
            (createPath s).takeWhile (fun c => c != ['*', '*']) ++ [['*', '*']]]) ∧
      ∀ rest : Str, ['*', '*'] ∉ createPath s →
        createVPath (s ++ ['/', '*', '*', '/'] ++ rest) = createVPath (s ++ ['/', '*', '*']) := by
  refine ⟨fun h => ?_, fun h => ?_, fun rest h => ?_⟩
  · rw [createVPath_eq, if_neg h]
  · rw [createVPath_eq, if_pos h]
  · have ht : ['*', '*'] ∉ tokenizer s := by
      rw [createPath_eq] at h
      exact fun hm => h (List.mem_append_right _ hm)
    have e : s ++ ['/', '*', '*', '/'] ++ rest = s ++ '/' :: '*' :: '*' :: '/' :: rest := by
      simp
    rw [e, createVPath_eq, createVPath_eq, createPath_append_marker,
      createPath_append_marker_end, if_pos (by simp), if_pos (by simp), List.append_assoc,
      List.singleton_append, takeWhile_append_marker _ _ ht, takeWhile_append_marker _ _ ht]

/-- C8. `createPath(s)` is `[""]` when `s` is `"/"` and otherwise the list of the
non-empty segments of `s` between separators `/`, in order; no component contains
`/`, no component is empty unless `s` is `"/"`, and `createPath(s)` is empty exactly
when `s` is made of `/` characters only and is not `"/"`. -/
theorem createPath_eq_segments (s : Str) :
    createPath s = (if s = ['/'] then [[]] else splitDiscardEmpty s) ∧
      (∀ c ∈ createPath s, '/' ∉ c) ∧
      (s ≠ ['/'] → ∀ c ∈ createPath s, c ≠ []) ∧
      (createPath s = [] ↔ (∀ c ∈ s, c = '/') ∧ s ≠ ['/']) ∧
      createPath [] = [] := by
  by_cases hs : s = ['/']
  · subst hs
    decide
  · have e : createPath s = tokenizer s := by
      rw [createPath_eq, if_neg hs, List.nil_append]
    refine ⟨?_, ?_, ?_, ?_, rfl⟩
    · rw [e, if_neg hs, tokenizer_eq_split]
    · intro c hc
      rw [e] at hc
      exact (tokenizer_mem s c hc).2
    · intro _ c hc
      rw [e] at hc
      exact (tokenizer_mem s c hc).1
    · rw [e, tokenizer_eq_nil]
      simp [hs]

/-! `insert` -/

/-- C9. The store after `insert(p)` is the store before followed by
`createVPath(p')`, `p'` the glob-rewritten pattern: every earlier entry keeps its
position and content, the size grows by 1 when `p'` has no `**` component and by 2
when it has one, and no sequence of inserts makes the size smaller. -/
theorem insert_append_only (g : Str → Str) (S : PathSet) (p : Str) :
    (insert g S p).paths_ = S.paths_ ++ createVPath (g p) ∧
      (∀ i, i < S.paths_.length → (insert g S p).paths_[i]? = S.paths_[i]?) ∧
      (['*', '*'] ∉ createPath (g p) →
        (insert g S p).paths_.length = S.paths_.length + 1) ∧
      (['*', '*'] ∈ createPath (g p) →
        (insert g S p).paths_.length = S.paths_.length + 2) ∧
      ∀ ps : List Str, S.paths_ <+: (insertAll g S ps).paths_ ∧
        S.paths_.length ≤ (insertAll g S ps).paths_.length := by
  refine ⟨insert_paths g S p, fun i hi => ?_, fun h => ?_, fun h => ?_, fun ps => ?_⟩
  · rw [insert_paths, List.getElem?_append_left hi]
  · rw [insert_paths, List.length_append, createVPath_length, if_neg h]
  · rw [insert_paths, List.length_append, createVPath_length, if_pos h]
  · exact ⟨insertAll_paths_extends g S ps, (insertAll_paths_extends g S ps).length_le⟩

/-- C10. If `find(q)` is true on a store, it is still true on the store obtained from
it by any finite sequence of `insert` calls. -/
theorem find_monotone_insert (g : Str → Str) (S : PathSet) (q : Str) (ps : List Str)
    (h : find S q = true) : find (insertAll g S ps) q = true := by
  obtain ⟨t, ht⟩ := insertAll_paths_extends g S ps
  unfold find at h ⊢
  rw [← ht, findLoop_append, h]
  rfl

/-- The witness of C10: `find("/a/b")` holds after `insert("/a/**")` and still holds
after the further inserts of `/c` and `/a/b`. -/
theorem find_monotone_insert_witness :
    find (insert id new "/a/**".toList) "/a/b".toList = true ∧
      find (insertAll id (insert id new "/a/**".toList) ["/c".toList, "/a/b".toList])
        "/a/b".toList = true :=
  ⟨by decide, find_monotone_insert id (insert id new "/a/**".toList) "/a/b".toList
    ["/c".toList, "/a/b".toList] (by decide)⟩

/-! Duplicate inserts and reset -/

/-- C11. Inserting `p` twice appends the variants of `p` twice, so it adds twice as
many entries as inserting it once, and `find(q)` after the two inserts equals
`find(q)` after one. -/
theorem insert_twice (g : Str → Str) (S : PathSet) (p q : Str) :
    (insert g (insert g S p) p).paths_ =
        S.paths_ ++ createVPath (g p) ++ createVPath (g p) ∧
      (insert g S p).paths_.length = S.paths_.length + (createVPath (g p)).length ∧
      (insert g (insert g S p) p).paths_.length =
        S.paths_.length + 2 * (createVPath (g p)).length ∧
      find (insert g (insert g S p) p) q = find (insert g S p) q := by
  refine ⟨by rw [insert_paths, insert_paths], by rw [insert_paths, List.length_append],
    ?_, ?_⟩
  · rw [insert_paths, insert_paths, List.length_append, List.length_append]
    omega
  · unfold find
    simp only [insert_paths, findLoop_append]
    cases findLoop (createPath q) S.paths_ <;>
      cases findLoop (createPath q) (createVPath (g p)) <;> rfl

/-- C12. After `clear()` the store holds zero entries, `empty()` is true and
`find(q)` is false for every `q`; and `empty()` is true exactly when the store holds
zero entries. -/
theorem clear_resets (S : PathSet) (q : Str) :
    (clear S).paths_ = [] ∧
      (clear S).paths_.length = 0 ∧
      empty (clear S) = true ∧
      find (clear S) q = false ∧
      (empty S = true ↔ S.paths_.length = 0) := by
  refine ⟨rfl, rfl, rfl, rfl, ?_⟩
  unfold empty
  cases S.paths_ <;> simp

/-! Partial-component patterns -/

theorem matchesFrom_mismatch (P Q : Path) (i : Nat) (x y : Str)
    (hP : P[i]? = some x) (hQ : Q[i]? = some y)
    (hx : x ≠ ['*'] ∧ x ≠ ['*', '*']) (hy : y ≠ ['*'] ∧ y ≠ ['*', '*']) (hxy : x ≠ y)
    (hbefore : ∀ j, j < i → P[j]? ≠ some ['*', '*'] ∧ Q[j]? ≠ some ['*', '*']) :
    matchesFrom P Q = false := by
  induction P generalizing Q i with
  | nil => simp at hP
  | cons l ls ih =>
    cases Q with
    | nil => simp at hQ
    | cons r rs =>
      cases i with
      | zero =>
        simp only [List.getElem?_cons_zero, Option.some.injEq] at hP hQ
        subst hP
        subst hQ
        simp [matchesFrom, hx.1, hx.2, hy.1, hy.2, hxy]
      | succ i =>
        simp only [List.getElem?_cons_succ] at hP hQ
        have h0 := hbefore 0 (by omega)
        simp only [List.getElem?_cons_zero, ne_eq, Option.some.injEq] at h0
        have hrec := ih rs i hP hQ (fun j hj => by
          have := hbefore (j + 1) (by omega)
          simpa only [List.getElem?_cons_succ] using this)
        rw [matchesFrom, if_neg (by simp [h0.1, h0.2]), hrec]
        simp

/-- C16. A component that is neither `*` nor `**` is literal text, also when it
contains a wildcard character: if at a position `i` below both lengths, with no `**`
at an earlier position on either side, the components of `P` and `Q` are both
different from `*` and `**` and differ from one another, then `patternMatches(P, Q)`
is false. -/
theorem patternMatches_literal_mismatch (P Q : Path) (i : Nat) (x y : Str)
    (hP : P[i]? = some x) (hQ : Q[i]? = some y)
    (hx : x ≠ ['*'] ∧ x ≠ ['*', '*']) (hy : y ≠ ['*'] ∧ y ≠ ['*', '*']) (hxy : x ≠ y)
    (hbefore : ∀ j, j < i → P[j]? ≠ some ['*', '*'] ∧ Q[j]? ≠ some ['*', '*']) :
    patternMatches P Q = false := by
  rw [patternMatches_eq]
  exact matchesFrom_mismatch P Q i x y hP hQ hx hy hxy hbefore

/-- The witness of C16: the stored pattern `[This, Path, xyz*]` does not match the
query `[This, Path, xyzabc, f]` and matches `[This, Path, xyz*, f]`. -/
theorem patternMatches_literal_mismatch_witness :
    patternMatches ["This".toList, "Path".toList, "xyz*".toList]
        ["This".toList, "Path".toList, "xyzabc".toList, "f".toList] = false ∧
      patternMatches ["This".toList, "Path".toList, "xyz*".toList]
        ["This".toList, "Path".toList, "xyz*".toList, "f".toList] = true :=
  ⟨patternMatches_literal_mismatch ["This".toList, "Path".toList, "xyz*".toList]
      ["This".toList, "Path".toList, "xyzabc".toList, "f".toList] 2 "xyz*".toList
      "xyzabc".toList rfl rfl (by decide) (by decide) (by decide) (by decide),
    by decide⟩

/-! The two variants of a recursive pattern -/

theorem matchesFrom_append_marker (pre Q : Path) (h : matchesFrom pre Q = true) :
    matchesFrom (pre ++ [['*', '*']]) Q = true := by
  induction pre generalizing Q with
  | nil =>
    cases Q with
    | nil => simp [matchesFrom] at h
    | cons r rs => simp [matchesFrom]
  | cons l ls ih =>
    cases Q with
    | nil => simp [matchesFrom] at h
    | cons r rs =>
      rw [List.cons_append, matchesFrom]
      rw [matchesFrom] at h
      by_cases h1 : l = ['*', '*'] ∨ r = ['*', '*']
      · rw [if_pos h1]
      · rw [if_neg h1] at h ⊢
        by_cases h2 : l = ['*'] ∨ r = ['*']
        · rw [if_pos h2] at h ⊢
          exact ih rs h
        · rw [if_neg h2] at h ⊢
          by_cases h3 : l ≠ r
          · rw [if_pos h3] at h
            exact absurd h (by simp)
          · rw [if_neg h3] at h ⊢
            exact ih rs h

/-- C18. The first variant of a recursive pattern adds nothing to matching: if
`patternMatches(pre, Q)` holds for a `pre` without `**`, then
`patternMatches(pre ++ ["**"], Q)` holds; hence `find(q)` on a store followed by
`createVPath(s)` equals `find(q)` on the store followed by the last variant of
`createVPath(s)` alone. -/
theorem first_variant_redundant (pre Q : Path) (S : PathSet) (s q : Str) :
    (['*', '*'] ∉ pre → patternMatches pre Q = true →
        patternMatches (pre ++ [['*', '*']]) Q = true) ∧
      ∃ last : Path, (createVPath s).getLast? = some last ∧
        find { paths_ := S.paths_ ++ createVPath s } q =
          find { paths_ := S.paths_ ++ [last] } q := by
  refine ⟨fun _ h => ?_, ?_⟩
  · rw [patternMatches_eq] at h ⊢
    exact matchesFrom_append_marker pre Q h
  · rw [createVPath_eq]
    by_cases hm : ['*', '*'] ∈ createPath s
    · rw [if_pos hm]
      refine ⟨_, rfl, ?_⟩
      unfold find
      simp only [findLoop_append, findLoop, patternMatches_eq]
      cases hpre : matchesFrom
          ((createPath s).takeWhile (fun c => c != ['*', '*'])) (createPath q) with
      | false => simp
      | true => simp [matchesFrom_append_marker _ _ hpre]
    · rw [if_neg hm]
      exact ⟨_, rfl, rfl⟩

/-! Patterns that tokenize to the empty path -/

theorem matchesFrom_nil_left (Q : Path) (h : Q ≠ []) : matchesFrom [] Q = true := by
  cases Q with
  | nil => exact absurd rfl h
  | cons r rs => rfl

theorem nil_mem_createVPath (s : Str)
    (hs : ((∀ c ∈ s, c = '/') ∧ s ≠ ['/']) ∨ s = ['/', '*', '*']) :
    [] ∈ createVPath s := by
  rcases hs with ⟨hall, hne⟩ | rfl
  · have hc : createPath s = [] := by
      rw [createPath_eq, if_neg hne, (tokenizer_eq_nil s).mpr hall]
      rfl
    rw [createVPath_eq, hc]
    simp
  · decide

/-- C20. After `insert(s)` into any store, for a pattern `s` made of `/` characters
only and other than `"/"` (the empty string, `"//"`, ...) or for `s = "/**"`, the glob
rewrite leaving `s` as it is, `find(q)` is true for every query `q` whose tokenization
is not empty, `q = "/"` included; and on every store `find(q)` is false for every `q`
whose tokenization is empty, such as the empty string. -/
theorem find_after_insert_empty_pattern (g : Str → Str) (S : PathSet) (s : Str)
    (hs : ((∀ c ∈ s, c = '/') ∧ s ≠ ['/']) ∨ s = ['/', '*', '*']) (hg : g s = s) :
    (∀ q : Str, createPath q ≠ [] → find (insert g S s) q = true) ∧
      find (insert g S s) ['/'] = true ∧
      (∀ (T : PathSet) (q : Str), createPath q = [] → find T q = false) ∧
      ∀ T : PathSet, find T [] = false := by
  have hfind : ∀ q : Str, createPath q ≠ [] → find (insert g S s) q = true := by
    intro q hq
    unfold find
    rw [findLoop_iff, insert_paths, hg]
    refine ⟨[], List.mem_append_right _ (nil_mem_createVPath s hs), ?_⟩
    rw [patternMatches_eq]
    exact matchesFrom_nil_left _ hq
  have hempty : ∀ (T : PathSet) (q : Str), createPath q = [] → find T q = false := by
    intro T q hq
    rw [Bool.eq_false_iff]
    unfold find
    intro hf
    rw [findLoop_iff, hq] at hf
    obtain ⟨P, -, hP⟩ := hf
    rw [patternMatches_eq, matchesFrom_nil_right] at hP
    exact absurd hP (by simp)
  exact ⟨hfind, hfind ['/'] (by decide), hempty, fun T => hempty T [] rfl⟩

/-- The witness of C20: after `insert("//")` and after `insert("/**")` into a store
that holds `/a`, `find("/x/y")` and `find("/")` are true and `find("")` is false. -/
theorem find_after_insert_empty_pattern_witness :
    find (insert id (insert id new "/a".toList) "//".toList) "/x/y".toList = true ∧
      find (insert id (insert id new "/a".toList) "//".toList) "/".toList = true ∧
      find (insert id (insert id new "/a".toList) "/**".toList) "/x/y".toList = true ∧
      find (insert id (insert id new "/a".toList) "/**".toList) "".toList = false :=
  ⟨(find_after_insert_empty_pattern id (insert id new "/a".toList) "//".toList
      (Or.inl (by decide)) rfl).1 "/x/y".toList (by decide),
    (find_after_insert_empty_pattern id (insert id new "/a".toList) "//".toList
      (Or.inl (by decide)) rfl).2.1,
    (find_after_insert_empty_pattern id (insert id new "/a".toList) "/**".toList
      (Or.inr rfl) rfl).1 "/x/y".toList (by decide),
    (find_after_insert_empty_pattern id (insert id new "/a".toList) "/**".toList
      (Or.inr rfl) rfl).2.2.2 _⟩

end osquery.PathSet

namespace osquery.resolvedPath

/-! Helper lemmas: the comparator -/

theorem compare_body_eq (lr rr : Bool) (p q : Str) :
    (if strCompare (p.take (min p.length q.length)) (q.take (min p.length q.length)) > 0 then
        false
      else if strCompare (p.take (min p.length q.length)) (q.take (min p.length q.length)) < 0
        then true
      else if (decide (min p.length q.length < q.length) && lr) ||
          (decide (min p.length q.length < p.length) && rr) then false
      else decide (p.length < q.length)) = compareFrom lr p q := by
  induction p generalizing q with
  | nil =>
    cases q with
    | nil => simp [strCompare, compareFrom]
    | cons y ys => cases lr <;> simp [strCompare, compareFrom]
  | cons x xs ih =>
    cases q with
    | nil => cases rr <;> simp [strCompare, compareFrom]
    | cons y ys =>
      simp only [List.length_cons, Nat.succ_min_succ, List.take_succ_cons, strCompare,
        compareFrom, Nat.add_lt_add_iff_right]
      by_cases h1 : x < y
      · simp [h1]
      · by_cases h2 : y < x
        · simp [h1, h2]
        · simp only [h1, h2, if_false, Nat.succ_eq_add_one, Nat.add_lt_add_iff_right]
          exact ih ys

theorem Compare_eq (a b : Path) : Compare a b = compareFrom a.recursive a.path b.path := by
  have hmin : (if a.path.length < b.path.length then a.path.length else b.path.length) =
      min a.path.length b.path.length := by
    by_cases h : a.path.length < b.path.length
    · rw [if_pos h, Nat.min_eq_left (Nat.le_of_lt h)]
    · rw [if_neg h, Nat.min_eq_right (Nat.le_of_not_lt h)]
  unfold Compare
  simp only [hmin]
  exact compare_body_eq a.recursive b.recursive a.path b.path

theorem compareFrom_self (r : Bool) (p : Str) : compareFrom r p p = false := by
  induction p with
  | nil => rfl
  | cons x xs ih => simp [compareFrom, ih]

theorem compareFrom_asymm (r r' : Bool) (p q : Str) (h : compareFrom r p q = true) :
    compareFrom r' q p = false := by
  induction p generalizing q with
  | nil =>
    cases q with
    | nil => rfl
    | cons y ys => rfl
  | cons x xs ih =>
    cases q with
    | nil => simp [compareFrom] at h
    | cons y ys =>
      simp only [compareFrom] at h ⊢
      by_cases h1 : x < y
      · simp [h1, lt_asymm h1]
      · by_cases h2 : y < x
        · simp [h1, h2] at h
        · simp only [h1, h2, if_false] at h ⊢
          exact ih ys h

theorem compareFrom_trans (ra rb : Bool) (p q t : Str) (h1 : compareFrom ra p q = true)
    (h2 : compareFrom rb q t = true) : compareFrom ra p t = true := by
  induction p generalizing q t with
  | nil =>
    cases q with
    | nil => simp [compareFrom] at h1
    | cons y ys =>
      cases t with
      | nil => simp [compareFrom] at h2
      | cons z zs => simpa [compareFrom] using h1
  | cons x xs ih =>
    cases q with
    | nil => simp [compareFrom] at h1
    | cons y ys =>
      cases t with
      | nil => simp [compareFrom] at h2
      | cons z zs =>
        simp only [compareFrom] at h1 h2 ⊢
        rcases lt_trichotomy x y with hxy | hxy | hxy
        · rcases lt_trichotomy y z with hyz | hyz | hyz
          · simp [lt_trans hxy hyz]
          · subst hyz
            simp [hxy]
          · simp [hyz, lt_asymm hyz] at h2
        · subst hxy
          rcases lt_trichotomy x z with hyz | hyz | hyz
          · simp [hyz]
          · subst hyz
            simp only [lt_irrefl, if_false] at h1 h2 ⊢
            exact ih ys zs h1 h2
          · simp [hyz, lt_asymm hyz] at h2
        · simp [hxy, lt_asymm hxy] at h1

theorem compareFrom_append (r : Bool) (p t : Str) (ht : t ≠ []) :
    compareFrom r p (p ++ t) = !r ∧ ∀ r' : Bool, compareFrom r' (p ++ t) p = false := by
  induction p with
  | nil =>
    cases t with
    | nil => exact absurd rfl ht
    | cons z zs => exact ⟨rfl, fun _ => rfl⟩
  | cons x xs ih => simpa [compareFrom] using ih

theorem compareFrom_incomparable_trans (ra rc : Bool) (p q t : Str)
    (h1 : compareFrom ra p q = false) (h2 : compareFrom false q p = false)
    (h3 : compareFrom false q t = false) (h4 : compareFrom rc t q = false) :
    compareFrom ra p t = false ∧ compareFrom rc t p = false := by
  induction p generalizing q t with
  | nil =>
    cases q with
    | nil =>
      cases t with
      | nil => exact ⟨rfl, rfl⟩
      | cons z zs => simp [compareFrom] at h3
    | cons y ys =>
      cases t with
      | nil => exact ⟨rfl, rfl⟩
      | cons z zs => exact ⟨by simpa [compareFrom] using h1, rfl⟩
  | cons x xs ih =>
    cases q with
    | nil => simp [compareFrom] at h2
    | cons y ys =>
      cases t with
      | nil => exact ⟨rfl, by simpa [compareFrom] using h4⟩
      | cons z zs =>
        simp only [compareFrom] at h1 h2 h3 h4 ⊢
        rcases lt_trichotomy x y with hxy | hxy | hxy
        · simp [hxy] at h1
        · subst hxy
          rcases lt_trichotomy x z with hyz | hyz | hyz
          · simp [hyz] at h3
          · subst hyz
            simp only [lt_irrefl, if_false] at h1 h2 h3 h4 ⊢
            exact ih ys zs h1 h2 h3 h4
          · simp [hyz, lt_asymm hyz] at h4
        · simp [hxy, lt_asymm hxy] at h2

theorem compareFrom_incomparable_eq (p q : Str) (h1 : compareFrom false p q = false)
    (h2 : compareFrom false q p = false) : p = q := by
  induction p generalizing q with
  | nil =>
    cases q with
    | nil => rfl
    | cons y ys => simp [compareFrom] at h1
  | cons x xs ih =>
    cases q with
    | nil => simp [compareFrom] at h2
    | cons y ys =>
      simp only [compareFrom] at h1 h2
      rcases lt_trichotomy x y with hxy | hxy | hxy
      · simp [hxy] at h1
      · subst hxy
        simp only [lt_irrefl, if_false] at h1 h2
        rw [ih ys h1 h2]
      · simp [hxy, lt_asymm hxy] at h2

/-! Helper lemmas: `std::string::find` -/

theorem strFind_none (pat s : Str) : strFind pat s = none ↔ ¬ pat <:+: s := by
  induction s with
  | nil => by_cases h : pat = [] <;> simp [strFind, h]
  | cons c cs ih =>
    by_cases h : pat <+: c :: cs
    · simp [strFind, h, List.infix_cons_iff]
    · simp [strFind, h, List.infix_cons_iff, ih]

theorem strFind_some (pat s : Str) (n : Nat) (h : strFind pat s = some n) :
    (∃ v, s = s.take n ++ pat ++ v) ∧ n ≤ s.length ∧
      ∀ u v : Str, s = u ++ pat ++ v → n ≤ u.length := by
  induction s generalizing n with
  | nil =>
    by_cases hp : pat = []
    · simp only [strFind, if_pos hp, Option.some.injEq] at h
      subst h
      subst hp
      exact ⟨⟨[], rfl⟩, Nat.le_refl _, fun _ _ _ => Nat.zero_le _⟩
    · simp [strFind, hp] at h
  | cons c cs ih =>
    by_cases hp : pat <+: c :: cs
    · simp only [strFind, List.isPrefixOf_iff_prefix.mpr hp, if_true, Option.some.injEq] at h
      subst h
      obtain ⟨v, hv⟩ := hp
      exact ⟨⟨v, by simp [hv]⟩, Nat.zero_le _, fun _ _ _ => Nat.zero_le _⟩
    · have hp' : pat.isPrefixOf (c :: cs) = false := by
        rw [Bool.eq_false_iff]
        exact fun e => hp (List.isPrefixOf_iff_prefix.mp e)
      simp only [strFind, hp', Bool.false_eq_true, if_false, Option.map_eq_some'] at h
      obtain ⟨m, hm, rfl⟩ := h
      obtain ⟨⟨v, hv⟩, hle, hmin⟩ := ih m hm
      refine ⟨⟨v, ?_⟩, by simpa using hle, fun u w hu => ?_⟩
      · rw [List.take_succ_cons, List.cons_append, List.cons_append, ← hv]
      · cases u with
        | nil => exact absurd ⟨w, by simpa using hu.symm⟩ hp
        | cons d ds =>
          simp only [List.cons_append, List.cons.injEq] at hu
          simpa using hmin ds w hu.2

theorem foldl_push_entry (r : Bool) (init : VPath) (l : List Str) :
    l.foldl (fun vpath path => vpath ++ [{ path := path, recursive := r }]) init =
      init ++ l.map (fun path => { path := path, recursive := r }) := by
  induction l generalizing init with
  | nil => simp
  | cons x xs ih => simp [ih]

theorem createVPath_without_marker (resolve : Str → List Str) (s : Str)
    (h : ¬ ['*', '*'] <:+: s) :
    createVPath resolve s = (resolve s).map (fun path => { path := path, recursive := false }) := by
  have hn := (strFind_none ['*', '*'] s).mpr h
  unfold createVPath
  rw [foldl_push_entry, hn]
  rfl

theorem createVPath_with_marker (resolve : Str → List Str) (s u v : Str)
    (hs : s = u ++ ['*', '*'] ++ v)
    (hmin : ∀ u' v' : Str, s = u' ++ ['*', '*'] ++ v' → u.length ≤ u'.length) :
    createVPath resolve s = (resolve u).map (fun path => { path := path, recursive := true }) := by
  have hin : ['*', '*'] <:+: s := ⟨u, v, hs.symm⟩
  cases hf : strFind ['*', '*'] s with
  | none => exact absurd hin ((strFind_none _ _).mp hf)
  | some n =>
    obtain ⟨⟨w, hw⟩, hle, hn⟩ := strFind_some _ _ _ hf
    have h1 : n ≤ u.length := hn u v hs
    have h2 : u.length ≤ n := by
      have := hmin (s.take n) w hw
      rwa [List.length_take, Nat.min_eq_left hle] at this
    have hu : s.take n = u := by
      rw [hs, List.append_assoc, List.take_append_of_le_length (by omega),
        List.take_of_length_le (by omega)]
    unfold createVPath
    rw [foldl_push_entry, hf]
    simp only [hu, Option.isSome_some, List.nil_append]

theorem first_marker_exists (s : Str) (h : ['*', '*'] <:+: s) :
    ∃ u v : Str, s = u ++ ['*', '*'] ++ v ∧
      ∀ u' v' : Str, s = u' ++ ['*', '*'] ++ v' → u.length ≤ u'.length := by
  cases hf : strFind ['*', '*'] s with
  | none => exact absurd h ((strFind_none _ _).mp hf)
  | some n =>
    obtain ⟨⟨w, hw⟩, hle, hn⟩ := strFind_some _ _ _ hf
    refine ⟨s.take n, w, hw, fun u' v' hs => ?_⟩
    rw [List.length_take, Nat.min_eq_left hle]
    exact hn u' v' hs

/-! The ordering of resolved entries -/

/-- C13, counterexample: `/x/y` and the recursive `/x/` are incomparable, the
recursive `/x/` and `/x/z` are incomparable, yet `/x/y` compares less than `/x/z`:
incomparability is not transitive. -/
theorem Compare_incomparable_not_transitive :
    Compare ⟨"/x/y".toList, false⟩ ⟨"/x/".toList, true⟩ = false ∧
      Compare ⟨"/x/".toList, true⟩ ⟨"/x/y".toList, false⟩ = false ∧
      Compare ⟨"/x/".toList, true⟩ ⟨"/x/z".toList, false⟩ = false ∧
      Compare ⟨"/x/z".toList, false⟩ ⟨"/x/".toList, true⟩ = false ∧
      Compare ⟨"/x/y".toList, false⟩ ⟨"/x/z".toList, false⟩ = true := by
  decide

/-- C13, amended. `Compare(a, a)` is false; `Compare(a, b)` and `Compare(b, c)` imply
`Compare(a, c)`; incomparability is transitive through a middle entry `b` that is not
recursive; and two incomparable entries that are both not recursive have the same
path text, so that `Compare` orders the non-recursive entries totally by their
text. -/
theorem Compare_order_nonrecursive (a b c : Path) :
    Compare a a = false ∧
      (Compare a b = true → Compare b c = true → Compare a c = true) ∧
      (b.recursive = false →
        Compare a b = false → Compare b a = false →
        Compare b c = false → Compare c b = false →
        Compare a c = false ∧ Compare c a = false) ∧
      (a.recursive = false → b.recursive = false →
        Compare a b = false → Compare b a = false → a.path = b.path) := by
  simp only [Compare_eq]
  refine ⟨compareFrom_self _ _, compareFrom_trans _ _ _ _ _, ?_, ?_⟩
  · intro hb h1 h2 h3 h4
    rw [hb] at h2 h3
    exact compareFrom_incomparable_trans _ _ _ _ _ h1 h2 h3 h4
  · intro ha hb h1 h2
    rw [ha] at h1
    rw [hb] at h2
    exact compareFrom_incomparable_eq _ _ h1 h2

/-- C14. When `a.path` is a proper initial part of `b.path`, `Compare(b, a)` is false
and `Compare(a, b)` is true exactly when `a.recursive` is false: a recursive shorter
entry is equivalent to the longer one, whatever the flag of the longer one, and a
shorter entry that is not recursive is strictly less. -/
theorem Compare_proper_initial (a b : Path) (t : Str) (ht : t ≠ [])
    (hb : b.path = a.path ++ t) :
    Compare b a = false ∧
      (Compare a b = true ↔ a.recursive = false) ∧
      (a.recursive = true → Compare a b = false ∧ Compare b a = false) ∧
      (a.recursive = false → Compare a b = true) := by
  have h := compareFrom_append a.recursive a.path t ht
  simp only [Compare_eq, hb, h.1, h.2 b.recursive]
  cases a.recursive <;> simp

/-- The witness of C14: the recursive `/etc/` against `/etc/passwd`, with the longer
entry recursive or not. -/
theorem Compare_proper_initial_witness :
    Compare ⟨"/etc/".toList, true⟩ ⟨"/etc/passwd".toList, false⟩ = false ∧
      Compare ⟨"/etc/passwd".toList, false⟩ ⟨"/etc/".toList, true⟩ = false ∧
      Compare ⟨"/etc/".toList, false⟩ ⟨"/etc/passwd".toList, true⟩ = true :=
  ⟨((Compare_proper_initial ⟨"/etc/".toList, true⟩ ⟨"/etc/passwd".toList, false⟩
      "passwd".toList (by decide) rfl).2.2.1 rfl).1,
    (Compare_proper_initial ⟨"/etc/".toList, true⟩ ⟨"/etc/passwd".toList, false⟩
      "passwd".toList (by decide) rfl).1,
    (Compare_proper_initial ⟨"/etc/".toList, false⟩ ⟨"/etc/passwd".toList, true⟩
      "passwd".toList (by decide) rfl).2.2.2 rfl⟩

/-- C19. `Compare` is a strict partial order on entries: `Compare(a, a)` is false,
`Compare(a, b)` excludes `Compare(b, a)`, `Compare(a, b)` with `Compare(b, c)` gives
`Compare(a, c)`; and two entries with the same path text are never ordered, whatever
their recursive flags. -/
theorem Compare_strict_partial_order (a b c : Path) :
    Compare a a = false ∧
      (Compare a b = true → Compare b a = false) ∧
      (Compare a b = true → Compare b c = true → Compare a c = true) ∧
      (a.path = b.path → Compare a b = false ∧ Compare b a = false) := by
  simp only [Compare_eq]
  refine ⟨compareFrom_self _ _, compareFrom_asymm _ _ _ _, compareFrom_trans _ _ _ _ _, ?_⟩
  intro h
  rw [h]
  exact ⟨compareFrom_self _ _, compareFrom_self _ _⟩

/-! The resolved variant builder -/

/-- C15. With the resolver an arbitrary function `resolve`, `createVPath(s)` is the
list of the paths of `resolve(s')`, in order, each with the same recursive flag:
`s' = s` and the flag false when `s` does not contain `**`; `s'` the part of `s`
before its first occurrence of `**` and the flag true when it does. An empty
`resolve(s')` gives the empty variant set. `createPath(s)` is the entry `(s, false)`. -/
theorem createVPath_resolved (resolve : Str → List Str) (s : Str) :
    (¬ ['*', '*'] <:+: s →
        createVPath resolve s =
          (resolve s).map (fun path => { path := path, recursive := false }) ∧
        (resolve s = [] → createVPath resolve s = [])) ∧
      (['*', '*'] <:+: s →
        ∃ u v : Str, s = u ++ ['*', '*'] ++ v ∧
          ∀ u' v' : Str, s = u' ++ ['*', '*'] ++ v' → u.length ≤ u'.length) ∧
      (∀ u v : Str, s = u ++ ['*', '*'] ++ v →
        (∀ u' v' : Str, s = u' ++ ['*', '*'] ++ v' → u.length ≤ u'.length) →
        createVPath resolve s =
          (resolve u).map (fun path => { path := path, recursive := true }) ∧
        (resolve u = [] → createVPath resolve s = [])) ∧
      createPath s = { path := s, recursive := false } := by
  refine ⟨fun h => ?_, first_marker_exists s, fun u v hs hmin => ?_, rfl⟩
  · refine ⟨createVPath_without_marker resolve s h, fun he => ?_⟩
    rw [createVPath_without_marker resolve s h, he]
    rfl
  · refine ⟨createVPath_with_marker resolve s u v hs hmin, fun he => ?_⟩
    rw [createVPath_with_marker resolve s u v hs hmin, he]
    rfl

end osquery.resolvedPath
